import Mathlib

/-!
# Verification of the GrammaticalAnalyzer LL(1) parser (Demo_02.cpp)

A shallow embedding of the single source file `Demo_02/Demo_02.cpp`:
grammar loading, FIRST/FOLLOW fixed-point computation, parse-table
construction and the table-driven parser, together with theorems that
settle the specification claims.

Modelling conventions:
* `std::set<string>` becomes `Finset String`.
* `std::map<string, set<string>>` becomes a total function
  `String → Finset String` defaulting to `∅`, which matches the
  default-construct-on-`operator[]` behaviour of `std::map`.
* `std::map<pair<string,string>, GrammarRule>` becomes
  `String × String → Option GrammarRule` (`none` = no entry, as tested
  by `parseTable.find` in the source).
* The `while (changed)` fixed-point loops are embedded as an iterate
  function `n ↦ state after n full passes`; the pass body is translated
  statement by statement.  The loop's result is the iterate at a fuel
  that provably lies beyond the stopping index (theorems below prove the
  stopping index exists, i.e. the C++ loop terminates, and that the
  iterate is constant from the stopping index on).
* The parser's `while (!parseStack.empty())` loop is embedded with a
  fuel parameter (`none` = fuel exhausted); the parser is not total for
  arbitrary tables.  Diagnostic lines written to the error stream are
  collected in a list.  Reads of `input[index - 1]` are modelled with a
  signed index and an explicit bounds check; an out-of-bounds read is
  reported as a distinguished `oob` outcome (in C++ it is undefined
  behaviour).
-/

namespace Demo02

/-- `struct Token { int line; string type; string value; }`. -/
structure Token where
  line : Int
  type : String
  value : String
deriving DecidableEq

/-- `struct GrammarRule { string lhs; vector<string> rhs; }`. -/
structure GrammarRule where
  lhs : String
  rhs : List String
deriving DecidableEq

/-- A FIRST/FOLLOW map: `map<string, set<string>>` with the defaulting
`operator[]` modelled as a total function that is `∅` off its support. -/
abbrev SymMap := String → Finset String

/-- `isupper(sym[0])` from `loadGrammar` (ASCII, C locale). -/
def isUpperFirst (s : String) : Bool :=
  match s.data with
  | [] => false
  | c :: _ => c.isUpper

/-- The four private fields of `LL1Parser` that `loadGrammar` fills in:
`grammar`, `terminals`, `nonTerminals`, `startSymbol`. -/
structure LoadState where
  grammar : List GrammarRule
  terminals : Finset String
  nonTerminals : Finset String
  startSymbol : String

/-- One iteration of the `while (getline...)` loop of `loadGrammar`,
acting on an already-whitespace-split line (`split` is the I/O adapter).
Lines with fewer than three fields or whose second field is not `"->"`
are skipped; otherwise the rule is appended, the left-hand side joins
`nonTerminals`, each right-hand symbol joins `terminals` or
`nonTerminals` according to `isupper(sym[0])`, and the start symbol is
set if still empty. -/
def loadLine (st : LoadState) (parts : List String) : LoadState :=
  match parts with
  | lhs :: arrow :: r0 :: rtail =>
    if arrow = "->" then
      let rhs := r0 :: rtail
      { grammar := st.grammar ++ [⟨lhs, rhs⟩]
        terminals := st.terminals ∪ (rhs.filter (fun s => !isUpperFirst s)).toFinset
        nonTerminals := insert lhs st.nonTerminals ∪ (rhs.filter (fun s => isUpperFirst s)).toFinset
        startSymbol := if st.startSymbol = "" then lhs else st.startSymbol }
    else st
  | _ => st

/-- `LL1Parser::loadGrammar`, fed the pre-split lines of the grammar file. -/
def loadGrammar (lines : List (List String)) : LoadState :=
  lines.foldl loadLine ⟨[], ∅, ∅, ""⟩

/-- Exact characterization of the two symbol sets built by `loadGrammar`. -/
def LoadInv (st : LoadState) : Prop :=
  (∀ s, s ∈ st.terminals ↔ ∃ r ∈ st.grammar, s ∈ r.rhs ∧ isUpperFirst s = false) ∧
  (∀ s, s ∈ st.nonTerminals ↔
    (∃ r ∈ st.grammar, r.lhs = s) ∨ ∃ r ∈ st.grammar, s ∈ r.rhs ∧ isUpperFirst s = true)

lemma loadLine_inv (st : LoadState) (parts : List String) (h : LoadInv st) :
    LoadInv (loadLine st parts) := by
  obtain ⟨h1, h2⟩ := h
  match parts with
  | [] => exact ⟨h1, h2⟩
  | [_] => exact ⟨h1, h2⟩
  | [_, _] => exact ⟨h1, h2⟩
  | lhs :: arrow :: r0 :: rtail =>
    by_cases harr : arrow = "->"
    · simp only [loadLine, if_pos harr]
      constructor
      · intro s
        simp only [Finset.mem_union, List.mem_toFinset, List.mem_filter, h1 s,
          List.mem_append, List.mem_singleton]
        constructor
        · rintro (⟨r, hr, hs⟩ | ⟨hs, hb⟩)
          · exact ⟨r, Or.inl hr, hs⟩
          · exact ⟨⟨lhs, r0 :: rtail⟩, Or.inr rfl, hs, by simpa using hb⟩
        · rintro ⟨r, hr | hr, hs⟩
          · exact Or.inl ⟨r, hr, hs⟩
          · subst hr; exact Or.inr ⟨hs.1, by simpa using hs.2⟩
      · intro s
        simp only [Finset.mem_union, Finset.mem_insert, List.mem_toFinset, List.mem_filter,
          h2 s, List.mem_append, List.mem_singleton]
        constructor
        · rintro ((hs | (⟨r, hr, hs⟩ | ⟨r, hr, hs⟩)) | ⟨hs, hb⟩)
          · exact Or.inl ⟨⟨lhs, r0 :: rtail⟩, Or.inr rfl, hs.symm⟩
          · exact Or.inl ⟨r, Or.inl hr, hs⟩
          · exact Or.inr ⟨r, Or.inl hr, hs⟩
          · exact Or.inr ⟨⟨lhs, r0 :: rtail⟩, Or.inr rfl, hs, hb⟩
        · rintro (⟨r, hr | hr, hs⟩ | ⟨r, hr | hr, hs⟩)
          · exact Or.inl (Or.inr (Or.inl ⟨r, hr, hs⟩))
          · subst hr; exact Or.inl (Or.inl hs.symm)
          · exact Or.inl (Or.inr (Or.inr ⟨r, hr, hs⟩))
          · subst hr; exact Or.inr ⟨hs.1, hs.2⟩
    · simp only [loadLine, if_neg harr]
      exact ⟨h1, h2⟩

lemma loadFold_inv (lines : List (List String)) :
    ∀ st : LoadState, LoadInv st → LoadInv (lines.foldl loadLine st) := by
  induction lines with
  | nil => intro st h; exact h
  | cons p rest ih => intro st h; exact ih _ (loadLine_inv st p h)

lemma loadGrammar_inv (lines : List (List String)) : LoadInv (loadGrammar lines) := by
  refine loadFold_inv lines _ ⟨?_, ?_⟩ <;> intro s <;> simp

/-- `LL1Parser::computeFirstOf`: scan the symbol sequence left to right;
a terminal is added and the scan stops; a nonterminal contributes its
current FIRST set and the scan continues only when that set contains
`"epsilon"`.  An empty sequence yields the empty set (the C++ loop body
never runs). -/
def computeFirstOf (terminals : Finset String) (firstSet : SymMap) :
    List String → Finset String
  | [] => ∅
  | s :: rest =>
    if s ∈ terminals then {s}
    else if "epsilon" ∈ firstSet s then firstSet s ∪ computeFirstOf terminals firstSet rest
    else firstSet s

lemma computeFirstOf_subset (terminals : Finset String) (firstSet : SymMap)
    (l : List String) (B : Finset String)
    (hmem : ∀ s ∈ l, s ∈ B) (hfs : ∀ s ∈ l, firstSet s ⊆ B) :
    computeFirstOf terminals firstSet l ⊆ B := by
  induction l with
  | nil => simp [computeFirstOf]
  | cons s rest ih =>
    have hs : s ∈ B := hmem s (List.mem_cons_self s rest)
    have hfss : firstSet s ⊆ B := hfs s (List.mem_cons_self s rest)
    have ih' := ih (fun x hx => hmem x (List.mem_cons_of_mem s hx))
      (fun x hx => hfs x (List.mem_cons_of_mem s hx))
    unfold computeFirstOf
    split
    · simpa using hs
    · split
      · exact Finset.union_subset hfss ih'
      · exact hfss

/-! ## Generic fixed-point pass machinery

Both `computeFirst` and `computeFollow` are `while (changed)` loops
whose body walks a fixed list of update sites; at each site the current
set at some key is replaced by its union with a freshly computed set,
and `changed` is set whenever the stored set grew.  `ufStep`/`unionFold`
capture one pass, `ufIter` the n-th pass, and the lemmas establish
monotonicity, a strictly increasing cardinality measure while `changed`
holds, and hence termination of the C++ loop. -/

section FixpointIteration

variable {α : Type} (key : α → Option String) (val : SymMap → α → Finset String)

/-- Process one update site: if the site addresses key `k`, replace the
stored set at `k` by its union with the computed value and record in the
flag whether the stored set grew (the `oldSize`/`size()` comparison). -/
def ufStep (acc : SymMap × Bool) (a : α) : SymMap × Bool :=
  match key a with
  | none => acc
  | some k =>
    let ns := acc.1 k ∪ val acc.1 a
    (Function.update acc.1 k ns, acc.2 || decide ((acc.1 k).card < ns.card))

/-- One full pass of the `while (changed)` loop body over update sites `L`. -/
def unionFold (L : List α) (init : SymMap × Bool) : SymMap × Bool :=
  L.foldl (ufStep key val) init

/-- The keys a pass can write to. -/
def ufKeys (L : List α) : Finset String := (L.filterMap key).toFinset

/-- The stored map after `n` full passes starting from `m0`. -/
def ufIter (L : List α) (m0 : SymMap) : Nat → SymMap
  | 0 => m0
  | n + 1 => (unionFold key val L (ufIter L m0 n, false)).1

/-- The `changed` flag produced by the pass that follows `n` full passes. -/
def ufChanged (L : List α) (m0 : SymMap) (n : Nat) : Bool :=
  (unionFold key val L (ufIter key val L m0 n, false)).2

lemma ufStep_mono (acc : SymMap × Bool) (a : α) :
    ∀ N, acc.1 N ⊆ (ufStep key val acc a).1 N := by
  intro N
  unfold ufStep
  cases h : key a with
  | none => exact Finset.Subset.refl _
  | some k =>
    simp only [Function.update_apply]
    split
    · next heq => subst heq; exact Finset.subset_union_left
    · exact Finset.Subset.refl _

lemma unionFold_mono (L : List α) :
    ∀ init : SymMap × Bool, ∀ N, init.1 N ⊆ (unionFold key val L init).1 N := by
  induction L with
  | nil => intro init N; exact Finset.Subset.refl _
  | cons a rest ih =>
    intro init N
    exact Finset.Subset.trans (ufStep_mono key val init a N) (ih (ufStep key val init a) N)

lemma ufStep_flag (acc : SymMap × Bool) (a : α) (h : acc.2 = true) :
    (ufStep key val acc a).2 = true := by
  unfold ufStep
  cases key a with
  | none => exact h
  | some k => simp [h]

lemma ufStep_unchanged (acc : SymMap × Bool) (a : α)
    (h : (ufStep key val acc a).2 = false) :
    acc.2 = false ∧ (ufStep key val acc a).1 = acc.1 := by
  unfold ufStep at h ⊢
  cases hk : key a with
  | none => exact ⟨by simpa [hk] using h, by simp [hk]⟩
  | some k =>
    simp only [hk, Bool.or_eq_false_iff, decide_eq_false_iff_not, not_lt] at h
    obtain ⟨h2, hcard⟩ := h
    have hsub : acc.1 k ⊆ acc.1 k ∪ val acc.1 a := Finset.subset_union_left
    have heq : acc.1 k ∪ val acc.1 a = acc.1 k :=
      (Finset.eq_of_subset_of_card_le hsub hcard).symm
    refine ⟨h2, ?_⟩
    simp only [hk, heq, Function.update_eq_self]

lemma unionFold_unchanged (L : List α) :
    ∀ init : SymMap × Bool, (unionFold key val L init).2 = false →
      init.2 = false ∧ (unionFold key val L init).1 = init.1 := by
  induction L with
  | nil => intro init h; exact ⟨h, rfl⟩
  | cons a rest ih =>
    intro init h
    have hrest := ih (ufStep key val init a) h
    have hstep := ufStep_unchanged key val init a hrest.1
    exact ⟨hstep.1, by rw [show unionFold key val (a :: rest) init =
      unionFold key val rest (ufStep key val init a) from rfl, hrest.2, hstep.2]⟩

lemma ufKeys_cons_subset (a : α) (L : List α) :
    ufKeys key L ⊆ ufKeys key (a :: L) := by
  unfold ufKeys
  cases h : key a with
  | none => simp [List.filterMap_cons, h]
  | some k =>
    simp only [List.filterMap_cons, h]
    intro x hx
    simp only [List.toFinset_cons, Finset.mem_insert]
    exact Or.inr (by simpa using hx)

lemma unionFold_strict (L : List α) :
    ∀ init : SymMap × Bool, (unionFold key val L init).2 = true →
      init.2 = true ∨ ∃ N ∈ ufKeys key L, init.1 N ⊂ (unionFold key val L init).1 N := by
  induction L with
  | nil => intro init h; exact Or.inl h
  | cons a rest ih =>
    intro init h
    have hfold : unionFold key val (a :: rest) init
        = unionFold key val rest (ufStep key val init a) := rfl
    rw [hfold] at h ⊢
    rcases ih (ufStep key val init a) h with hflag | ⟨N, hN, hss⟩
    · -- the growth (if any) happened at the head step
      unfold ufStep at hflag
      cases hk : key a with
      | none =>
        rw [hk] at hflag
        exact Or.inl hflag
      | some k =>
        rw [hk] at hflag
        simp only [Bool.or_eq_true, decide_eq_true_eq] at hflag
        rcases hflag with hflag | hcard
        · exact Or.inl hflag
        · refine Or.inr ⟨k, ?_, ?_⟩
          · unfold ufKeys
            simp [List.filterMap_cons, hk]
          · have h1 : init.1 k ⊂ (ufStep key val init a).1 k := by
              unfold ufStep
              rw [hk]
              simp only [Function.update_same]
              refine Finset.ssubset_iff_subset_ne.mpr ⟨Finset.subset_union_left, ?_⟩
              intro heq
              rw [← heq] at hcard
              exact lt_irrefl _ hcard
            exact Finset.ssubset_of_ssubset_of_subset h1 (unionFold_mono key val rest _ k)
    · refine Or.inr ⟨N, ufKeys_cons_subset key a rest hN, ?_⟩
      exact Finset.ssubset_of_subset_of_ssubset (ufStep_mono key val init a N) hss

lemma unionFold_bound (L : List α) (B : Finset String)
    (hval : ∀ (m : SymMap) (a : α), a ∈ L → (∀ K, m K ⊆ B) → val m a ⊆ B) :
    ∀ init : SymMap × Bool, (∀ K, init.1 K ⊆ B) →
      ∀ K, (unionFold key val L init).1 K ⊆ B := by
  induction L with
  | nil => intro init h K; exact h K
  | cons a rest ih =>
    intro init h K
    have hstep : ∀ K, (ufStep key val init a).1 K ⊆ B := by
      intro K
      unfold ufStep
      cases hk : key a with
      | none => exact h K
      | some k =>
        simp only [Function.update_apply]
        split
        · exact Finset.union_subset (h k) (hval init.1 a (List.mem_cons_self a rest) h)
        · exact h K
    exact ih (fun m a ha => hval m a (List.mem_cons_of_mem _ ha)) (ufStep key val init a) hstep K

/-- Total cardinality of the stored sets over the writable keys: the
termination measure of the `while (changed)` loop. -/
def ufMeasure (L : List α) (m : SymMap) : Nat :=
  ∑ N ∈ ufKeys key L, (m N).card

lemma ufIter_succ_mono (L : List α) (m0 : SymMap) (n : Nat) :
    ∀ N, ufIter key val L m0 n N ⊆ ufIter key val L m0 (n + 1) N := by
  intro N
  exact unionFold_mono key val L (ufIter key val L m0 n, false) N

lemma ufIter_mono (L : List α) (m0 : SymMap) {n m : Nat} (h : n ≤ m) :
    ∀ N, ufIter key val L m0 n N ⊆ ufIter key val L m0 m N := by
  induction m with
  | zero =>
    intro N
    rw [Nat.le_zero.mp h]
  | succ m ih =>
    intro N
    rcases Nat.lt_or_ge n (m + 1) with hlt | hge
    · exact Finset.Subset.trans (ih (Nat.lt_succ_iff.mp hlt) N) (ufIter_succ_mono key val L m0 m N)
    · rw [Nat.le_antisymm h hge]

lemma ufIter_bound (L : List α) (m0 : SymMap) (B : Finset String)
    (hval : ∀ (m : SymMap) (a : α), a ∈ L → (∀ K, m K ⊆ B) → val m a ⊆ B)
    (hinit : ∀ K, m0 K ⊆ B) :
    ∀ n K, ufIter key val L m0 n K ⊆ B := by
  intro n
  induction n with
  | zero => exact hinit
  | succ n ih => exact unionFold_bound key val L B hval (ufIter key val L m0 n, false) ih

lemma ufChanged_false_stable (L : List α) (m0 : SymMap) (n : Nat)
    (h : ufChanged key val L m0 n = false) :
    ufIter key val L m0 (n + 1) = ufIter key val L m0 n := by
  exact (unionFold_unchanged key val L (ufIter key val L m0 n, false) h).2

lemma ufIter_stable (L : List α) (m0 : SymMap) (n : Nat)
    (h : ufChanged key val L m0 n = false) :
    ∀ m, n ≤ m → ufIter key val L m0 m = ufIter key val L m0 n := by
  intro m hm
  induction m with
  | zero => rw [Nat.le_zero.mp hm]
  | succ m ih =>
    rcases Nat.lt_or_ge n (m + 1) with hlt | hge
    · have heq : ufIter key val L m0 m = ufIter key val L m0 n := ih (Nat.lt_succ_iff.mp hlt)
      have hch : ufChanged key val L m0 m = false := by
        unfold ufChanged at h ⊢
        rw [heq]
        exact h
      rw [ufChanged_false_stable key val L m0 m hch]
      exact heq
    · rw [Nat.le_antisymm hm hge]

lemma ufChanged_true_lt (L : List α) (m0 : SymMap) (n : Nat)
    (h : ufChanged key val L m0 n = true) :
    ufMeasure key L (ufIter key val L m0 n) < ufMeasure key L (ufIter key val L m0 (n + 1)) := by
  rcases unionFold_strict key val L (ufIter key val L m0 n, false) h with hfalse | ⟨N, hN, hss⟩
  · exact absurd hfalse (by simp)
  · unfold ufMeasure
    refine Finset.sum_lt_sum (fun i _ => Finset.card_le_card (ufIter_succ_mono key val L m0 n i))
      ⟨N, hN, Finset.card_lt_card hss⟩

lemma ufMeasure_ge (L : List α) (m0 : SymMap) (n : Nat)
    (h : ∀ k < n, ufChanged key val L m0 k = true) :
    n ≤ ufMeasure key L (ufIter key val L m0 n) := by
  induction n with
  | zero => exact Nat.zero_le _
  | succ n ih =>
    have h1 : n ≤ ufMeasure key L (ufIter key val L m0 n) :=
      ih (fun k hk => h k (Nat.lt_succ_of_lt hk))
    have h2 := ufChanged_true_lt key val L m0 n (h n (Nat.lt_succ_self n))
    omega

lemma ufMeasure_le (L : List α) (m0 : SymMap) (B : Finset String)
    (hval : ∀ (m : SymMap) (a : α), a ∈ L → (∀ K, m K ⊆ B) → val m a ⊆ B)
    (hinit : ∀ K, m0 K ⊆ B) (n : Nat) :
    ufMeasure key L (ufIter key val L m0 n) ≤ (ufKeys key L).card * B.card := by
  unfold ufMeasure
  calc ∑ N ∈ ufKeys key L, (ufIter key val L m0 n N).card
      ≤ ∑ _N ∈ ufKeys key L, B.card :=
        Finset.sum_le_sum (fun i _ =>
          Finset.card_le_card (ufIter_bound key val L m0 B hval hinit n i))
    _ = (ufKeys key L).card * B.card := by
        rw [Finset.sum_const, smul_eq_mul]

/-- The `while (changed)` loop terminates: some pass reports no growth. -/
lemma uf_terminates (L : List α) (m0 : SymMap) (B : Finset String)
    (hval : ∀ (m : SymMap) (a : α), a ∈ L → (∀ K, m K ⊆ B) → val m a ⊆ B)
    (hinit : ∀ K, m0 K ⊆ B) :
    ∃ n, ufChanged key val L m0 n = false := by
  by_contra hcon
  push_neg at hcon
  have hall : ∀ k, ufChanged key val L m0 k = true := by
    intro k
    cases hb : ufChanged key val L m0 k with
    | false => exact absurd hb (hcon k)
    | true => rfl
  set M := (ufKeys key L).card * B.card with hM
  have h1 : M + 1 ≤ ufMeasure key L (ufIter key val L m0 (M + 1)) :=
    ufMeasure_ge key val L m0 (M + 1) (fun k _ => hall k)
  have h2 := ufMeasure_le key val L m0 B hval hinit (M + 1)
  omega

/-- Every finite prefix of the iteration is below the iterate at fuel
`|keys| * |bound| + 1`, which is already the loop's fixed point. -/
lemma ufIter_subset_fix (L : List α) (m0 : SymMap) (B : Finset String)
    (hval : ∀ (m : SymMap) (a : α), a ∈ L → (∀ K, m K ⊆ B) → val m a ⊆ B)
    (hinit : ∀ K, m0 K ⊆ B) :
    ∀ n N, ufIter key val L m0 n N ⊆ ufIter key val L m0 ((ufKeys key L).card * B.card + 1) N := by
  have hex := uf_terminates key val L m0 B hval hinit
  set k := Nat.find hex with hk
  have hstop : ufChanged key val L m0 k = false := Nat.find_spec hex
  have hmin : ∀ j < k, ufChanged key val L m0 j = true := by
    intro j hj
    have := Nat.find_min hex hj
    cases hb : ufChanged key val L m0 j with
    | false => exact absurd hb this
    | true => rfl
  have hkM : k ≤ (ufKeys key L).card * B.card := by
    have h1 := ufMeasure_ge key val L m0 k hmin
    have h2 := ufMeasure_le key val L m0 B hval hinit k
    omega
  intro n N
  have hfix : ufIter key val L m0 ((ufKeys key L).card * B.card + 1)
      = ufIter key val L m0 k :=
    ufIter_stable key val L m0 k hstop _ (by omega)
  rw [hfix]
  rcases le_or_lt n k with hle | hgt
  · exact ufIter_mono key val L m0 hle N
  · rw [ufIter_stable key val L m0 k hstop n (Nat.le_of_lt hgt)]

end FixpointIteration

/-! ## `computeFirst` -/

/-- In `computeFirst`, every rule updates the FIRST set stored under its
left-hand side. -/
def firstKey (r : GrammarRule) : Option String := some r.lhs

/-- The set unioned in for a rule: `computeFirstOf(rule.rhs)` with the
current FIRST sets. -/
def firstVal (terminals : Finset String) (m : SymMap) (r : GrammarRule) : Finset String :=
  computeFirstOf terminals m r.rhs

/-- All symbols occurring on some right-hand side. -/
def rhsSymbols (g : List GrammarRule) : Finset String :=
  (g.flatMap GrammarRule.rhs).toFinset

/-- FIRST sets stored after `n` full passes of `computeFirst`'s
`while (changed)` loop (all sets start empty). -/
def computeFirstIter (terminals : Finset String) (g : List GrammarRule) (n : Nat) : SymMap :=
  ufIter firstKey (firstVal terminals) g (fun _ => ∅) n

/-- The `changed` flag of the pass following `n` passes of `computeFirst`. -/
def computeFirstChanged (terminals : Finset String) (g : List GrammarRule) (n : Nat) : Bool :=
  ufChanged firstKey (firstVal terminals) g (fun _ => ∅) n

/-- A pass count provably past the loop's fixed point. -/
def firstFuel (g : List GrammarRule) : Nat :=
  (ufKeys firstKey g).card * (rhsSymbols g).card + 1

/-- `LL1Parser::computeFirst`: the FIRST sets at the loop's fixed point. -/
def computeFirst (terminals : Finset String) (g : List GrammarRule) : SymMap :=
  computeFirstIter terminals g (firstFuel g)

lemma firstVal_bound (terminals : Finset String) (g : List GrammarRule) :
    ∀ (m : SymMap) (r : GrammarRule), r ∈ g → (∀ K, m K ⊆ rhsSymbols g) →
      firstVal terminals m r ⊆ rhsSymbols g := by
  intro m r hr hm
  refine computeFirstOf_subset terminals m r.rhs (rhsSymbols g) ?_ (fun s _ => hm s)
  intro s hs
  unfold rhsSymbols
  rw [List.mem_toFinset, List.mem_flatMap]
  exact ⟨r, hr, hs⟩

/-! ## `computeFollow` -/

/-- `LL1Parser::computeFollowOf`, inner scan of one rule's right-hand
side: each occurrence of the nonterminal contributes `firstOf(suffix)`
(plus the left-hand side's FOLLOW set when that FIRST set contains
`"epsilon"`), or the left-hand side's FOLLOW set when the occurrence is
last. -/
def followScanRHS (terminals : Finset String) (firstSet : SymMap)
    (lhsFollow : Finset String) (nt : String) : List String → Finset String
  | [] => ∅
  | s :: rest =>
    (if s = nt then
      (if rest.isEmpty then lhsFollow
       else
         let fN := computeFirstOf terminals firstSet rest
         fN ∪ (if "epsilon" ∈ fN then lhsFollow else ∅))
     else ∅) ∪ followScanRHS terminals firstSet lhsFollow nt rest

/-- `LL1Parser::computeFollowOf`: start from `{"$"}` for the start
symbol, then scan every rule for occurrences of the nonterminal. -/
def computeFollowOf (g : List GrammarRule) (terminals : Finset String)
    (firstSet followSet : SymMap) (startSymbol nt : String) : Finset String :=
  g.foldl (fun acc rule => acc ∪ followScanRHS terminals firstSet (followSet rule.lhs) nt rule.rhs)
    (if nt = startSymbol then {"$"} else ∅)

/-- In `computeFollow`, each right-hand-side occurrence of a symbol in
`nonTerminals` updates the FOLLOW set stored under that symbol; other
occurrences are skipped. -/
def followKey (nonTerminals : Finset String) (s : String) : Option String :=
  if s ∈ nonTerminals then some s else none

/-- The set unioned in at an occurrence of `s`: `computeFollowOf(s)`
with the current FOLLOW sets. -/
def followVal (g : List GrammarRule) (terminals : Finset String) (firstSet : SymMap)
    (startSymbol : String) (m : SymMap) (s : String) : Finset String :=
  computeFollowOf g terminals firstSet m startSymbol s

/-- The update sites of one `computeFollow` pass: all right-hand-side
occurrences, in rule order then position order. -/
def followOccs (g : List GrammarRule) : List String :=
  g.flatMap GrammarRule.rhs

/-- Everything a FOLLOW set can contain: the end marker, right-hand-side
symbols, and members of FIRST sets of right-hand-side symbols. -/
def followBound (g : List GrammarRule) (firstSet : SymMap) : Finset String :=
  insert "$" (rhsSymbols g ∪ (rhsSymbols g).biUnion firstSet)

/-- FOLLOW sets stored after `n` full passes of `computeFollow`'s
`while (changed)` loop. -/
def computeFollowIter (g : List GrammarRule) (terminals nonTerminals : Finset String)
    (firstSet : SymMap) (startSymbol : String) (n : Nat) : SymMap :=
  ufIter (followKey nonTerminals) (followVal g terminals firstSet startSymbol)
    (followOccs g) (fun _ => ∅) n

/-- The `changed` flag of the pass following `n` passes of `computeFollow`. -/
def computeFollowChanged (g : List GrammarRule) (terminals nonTerminals : Finset String)
    (firstSet : SymMap) (startSymbol : String) (n : Nat) : Bool :=
  ufChanged (followKey nonTerminals) (followVal g terminals firstSet startSymbol)
    (followOccs g) (fun _ => ∅) n

/-- A pass count provably past the loop's fixed point. -/
def followFuel (g : List GrammarRule) (nonTerminals : Finset String) (firstSet : SymMap) : Nat :=
  (ufKeys (followKey nonTerminals) (followOccs g)).card * (followBound g firstSet).card + 1

/-- `LL1Parser::computeFollow`: the FOLLOW sets at the loop's fixed point. -/
def computeFollow (g : List GrammarRule) (terminals nonTerminals : Finset String)
    (firstSet : SymMap) (startSymbol : String) : SymMap :=
  computeFollowIter g terminals nonTerminals firstSet startSymbol
    (followFuel g nonTerminals firstSet)

lemma followScanRHS_subset (terminals : Finset String) (firstSet : SymMap)
    (lhsFollow : Finset String) (nt : String) (l : List String) (B : Finset String)
    (hlf : lhsFollow ⊆ B) (hmem : ∀ s ∈ l, s ∈ B) (hfs : ∀ s ∈ l, firstSet s ⊆ B) :
    followScanRHS terminals firstSet lhsFollow nt l ⊆ B := by
  induction l with
  | nil => simp [followScanRHS]
  | cons s rest ih =>
    have ih' := ih (fun x hx => hmem x (List.mem_cons_of_mem s hx))
      (fun x hx => hfs x (List.mem_cons_of_mem s hx))
    have hfN : computeFirstOf terminals firstSet rest ⊆ B :=
      computeFirstOf_subset terminals firstSet rest B
        (fun x hx => hmem x (List.mem_cons_of_mem s hx))
        (fun x hx => hfs x (List.mem_cons_of_mem s hx))
    unfold followScanRHS
    refine Finset.union_subset ?_ ih'
    split
    · split
      · exact hlf
      · refine Finset.union_subset hfN ?_
        split
        · exact hlf
        · exact Finset.empty_subset B
    · exact Finset.empty_subset B

lemma followVal_bound (g : List GrammarRule) (terminals : Finset String)
    (firstSet : SymMap) (startSymbol : String) :
    ∀ (m : SymMap) (s : String), s ∈ followOccs g →
      (∀ K, m K ⊆ followBound g firstSet) →
      followVal g terminals firstSet startSymbol m s ⊆ followBound g firstSet := by
  intro m s _ hm
  unfold followVal computeFollowOf
  have hinit : (if s = startSymbol then ({"$"} : Finset String) else ∅) ⊆ followBound g firstSet := by
    split
    · intro x hx
      rw [Finset.mem_singleton] at hx
      subst hx
      exact Finset.mem_insert_self _ _
    · exact Finset.empty_subset _
  have hstep : ∀ r ∈ g, followScanRHS terminals firstSet (m r.lhs) s r.rhs ⊆
      followBound g firstSet := by
    intro r hr
    refine followScanRHS_subset terminals firstSet (m r.lhs) s r.rhs _ (hm r.lhs) ?_ ?_
    · intro x hx
      refine Finset.mem_insert_of_mem (Finset.mem_union_left _ ?_)
      unfold rhsSymbols
      rw [List.mem_toFinset, List.mem_flatMap]
      exact ⟨r, hr, hx⟩
    · intro x hx
      have hxr : x ∈ rhsSymbols g := by
        unfold rhsSymbols
        rw [List.mem_toFinset, List.mem_flatMap]
        exact ⟨r, hr, hx⟩
      intro y hy
      refine Finset.mem_insert_of_mem (Finset.mem_union_right _ ?_)
      rw [Finset.mem_biUnion]
      exact ⟨x, hxr, hy⟩
  -- fold a union of bounded sets
  have : ∀ (rules : List GrammarRule), (∀ r ∈ rules, r ∈ g) →
      ∀ acc : Finset String, acc ⊆ followBound g firstSet →
      rules.foldl (fun acc rule => acc ∪
        followScanRHS terminals firstSet (m rule.lhs) s rule.rhs) acc ⊆
        followBound g firstSet := by
    intro rules
    induction rules with
    | nil => intro _ acc hacc; exact hacc
    | cons r rest ih =>
      intro hsub acc hacc
      refine ih (fun x hx => hsub x (List.mem_cons_of_mem r hx)) _ ?_
      exact Finset.union_subset hacc (hstep r (hsub r (List.mem_cons_self r rest)))
  exact this g (fun _ hx => hx) _ hinit

/-! ## `buildParseTable` -/

/-- The lookahead column entries a rule writes in `buildParseTable`:
every member of `firstOf(rhs)` other than `"epsilon"`, plus — when
`firstOf(rhs)` contains `"epsilon"` — every member of the left-hand
side's FOLLOW set (the two `for` loops of the source, which assign the
same rule and can therefore be merged). -/
def ruleClaims (terminals : Finset String) (firstSet followSet : SymMap)
    (r : GrammarRule) : Finset String :=
  let F := computeFirstOf terminals firstSet r.rhs
  F.erase "epsilon" ∪ (if "epsilon" ∈ F then followSet r.lhs else ∅)

/-- `LL1Parser::buildParseTable`: rules are processed in grammar order
and each table assignment `parseTable[{lhs, t}] = rule` overwrites any
earlier entry at the same key. -/
def buildParseTable (g : List GrammarRule) (terminals : Finset String)
    (firstSet followSet : SymMap) : String × String → Option GrammarRule :=
  g.foldl (fun tbl r => fun k =>
      if k.1 = r.lhs ∧ k.2 ∈ ruleClaims terminals firstSet followSet r then some r
      else tbl k)
    (fun _ => none)

/-- Whether a rule writes table key `(N, t)`. -/
def claimsKey (terminals : Finset String) (firstSet followSet : SymMap)
    (N t : String) (r : GrammarRule) : Bool :=
  decide (r.lhs = N) && decide (t ∈ ruleClaims terminals firstSet followSet r)

lemma buildParseTable_eq_getLast (g : List GrammarRule) (terminals : Finset String)
    (firstSet followSet : SymMap) (N t : String) :
    buildParseTable g terminals firstSet followSet (N, t)
      = (g.filter (claimsKey terminals firstSet followSet N t)).getLast? := by
  unfold buildParseTable
  induction g using List.reverseRecOn with
  | nil => simp
  | append_singleton g r ih =>
    rw [List.foldl_append, List.foldl_cons, List.foldl_nil, List.filter_append]
    by_cases hc : claimsKey terminals firstSet followSet N t r = true
    · have hcond : (N, t).1 = r.lhs ∧ (N, t).2 ∈ ruleClaims terminals firstSet followSet r := by
        unfold claimsKey at hc
        simp only [Bool.and_eq_true, decide_eq_true_eq] at hc
        exact ⟨hc.1.symm, hc.2⟩
      simp only [List.filter_cons, hc, List.filter_nil, if_pos hcond]
      rw [List.getLast?_append]
      simp
    · have hcond : ¬((N, t).1 = r.lhs ∧ (N, t).2 ∈ ruleClaims terminals firstSet followSet r) := by
        unfold claimsKey at hc
        simp only [Bool.and_eq_true, decide_eq_true_eq] at hc
        intro h
        exact hc ⟨h.1.symm, h.2⟩
      simp only [List.filter_cons, if_neg hcond]
      rw [Bool.not_eq_true] at hc
      rw [hc]
      simpa using ih

/-! ## `parseTokens` -/

/-- The quote character used in the diagnostics. -/
def sq : String := String.singleton (Char.ofNat 39)

/-- The synthetic end-of-input token `{ -1, "$", "$" }` appended by
`parseTokens`. -/
def endTok : Token := ⟨-1, "$", "$"⟩

/-- Placeholder token for the (unreachable in actual runs) forward
out-of-range read of `input[index]`. -/
def dummyTok : Token := ⟨0, "", ""⟩

/-- `input[i]` with an explicit bounds check on a signed index; `none`
models an out-of-range access (undefined behaviour in the C++). -/
def getTok (input : List Token) (i : Int) : Option Token :=
  if 0 ≤ i ∧ i.toNat < input.length then some (input.getD i.toNat dummyTok) else none

/-- The error-terminal-mismatch diagnostic of line 195 of the source. -/
def mismatchDiag (top : String) (tok : Token) : String :=
  "Syntax error at line " ++ toString tok.line ++ ": expected " ++ sq ++ top ++ sq
    ++ " but found " ++ sq ++ tok.value ++ sq

/-- The error-no-entry diagnostic of line 202 of the source: the line
number falls back to `input[index - 1].line` when the current token's
line is negative, and the literal falls back to `input[index - 1].value`
when the current token's value is `"$"` — two independent tests.
`none` signals that a fallback read was out of bounds. -/
def noEntryDiag (input : List Token) (index : Nat) : Option String :=
  let cur := input.getD index dummyTok
  let lineTok := if cur.line < 0 then getTok input ((index : Int) - 1) else some cur
  let valueTok := if cur.value = "$" then getTok input ((index : Int) - 1) else some cur
  match lineTok, valueTok with
  | some lt, some vt =>
    some ("Syntax error at line " ++ toString lt.line ++ ": unexpected token "
      ++ sq ++ vt.value ++ sq)
  | _, _ => none

/-- How a terminating run of `parseTokens` ended. -/
inductive PStatus where
  | accept : PStatus
  | reject : PStatus
  | oob : PStatus
deriving DecidableEq

/-- The `while (!parseStack.empty())` loop of `parseTokens`.  The stack
is a list with its top first; `diags` accumulates the lines written to
the error file; the result is `none` when the fuel runs out (the loop
need not terminate for conflicted tables), otherwise the status together
with all diagnostic lines written. -/
def parseLoop (table : String × String → Option GrammarRule) (terminals : Finset String)
    (input : List Token) :
    Nat → List String → Nat → List String → Option (PStatus × List String)
  | 0, _, _, _ => none
  | _ + 1, [], _, diags => some (.reject, diags)
  | fuel + 1, top :: rest, index, diags =>
    let cur := input.getD index dummyTok
    if top = "$" ∧ cur.type = "$" then some (.accept, diags)
    else if top = cur.type then parseLoop table terminals input fuel rest (index + 1) diags
    else if top ∈ terminals then some (.reject, diags ++ [mismatchDiag top cur])
    else
      match table (top, cur.type) with
      | none =>
        match noEntryDiag input index with
        | none => some (.oob, diags)
        | some d => some (.reject, diags ++ [d])
      | some rule =>
        parseLoop table terminals input fuel
          ((rule.rhs.filter (fun s => s != "epsilon")) ++ rest) index diags

/-- `LL1Parser::parseTokens`: append the synthetic end token, start with
stack `[startSymbol, "$"]` and index 0, and run the loop. -/
def parseTokens (table : String × String → Option GrammarRule) (terminals : Finset String)
    (startSymbol : String) (tokens : List Token) (fuel : Nat) :
    Option (PStatus × List String) :=
  parseLoop table terminals (tokens ++ [endTok]) fuel [startSymbol, "$"] 0 []

/-- The whole `main` pipeline: load the grammar, compute FIRST and
FOLLOW, build the table, and parse the token list. -/
def runPipeline (lines : List (List String)) (tokens : List Token) (fuel : Nat) :
    Option (PStatus × List String) :=
  let st := loadGrammar lines
  let fs := computeFirst st.terminals st.grammar
  let fl := computeFollow st.grammar st.terminals st.nonTerminals fs st.startSymbol
  let tbl := buildParseTable st.grammar st.terminals fs fl
  parseTokens tbl st.terminals st.startSymbol tokens fuel

/-- Pipeline state for the one-rule grammar `S -> a`. -/
def exSt : LoadState := loadGrammar [["S", "->", "a"]]

/-- FIRST sets of the grammar `S -> a`. -/
def exFirst : SymMap := computeFirst exSt.terminals exSt.grammar

/-- FOLLOW sets of the grammar `S -> a` (as read by `buildParseTable`). -/
def exFollow : SymMap :=
  computeFollow exSt.grammar exSt.terminals exSt.nonTerminals exFirst exSt.startSymbol

/-- Parse table of the grammar `S -> a`. -/
def exTable : String × String → Option GrammarRule :=
  buildParseTable exSt.grammar exSt.terminals exFirst exFollow

/-! ## Claim theorems -/

/-- C2, counterexample: `computeFirstOf` applied to the empty symbol
sequence returns the empty set, not the claimed singleton `{"epsilon"}`
(shown at the concrete grammar state with terminal set `{"a"}` and all
FIRST sets empty). -/
theorem C2_counterexample :
    computeFirstOf {"a"} (fun _ => ∅) [] = (∅ : Finset String) ∧
    computeFirstOf {"a"} (fun _ => ∅) [] ≠ {"epsilon"} := by
  exact ⟨rfl, by decide⟩

/-- C2, amended: `computeFirstOf` of the empty symbol sequence returns
the empty set (the loop body never runs), for every grammar state; a
rule with an explicitly empty production is written with right-hand side
`["epsilon"]`, and `firstOf` of that sequence is `{"epsilon"}` whenever
`"epsilon"` is in the terminal set (which `loadGrammar` ensures when
`epsilon` occurs on a right-hand side). -/
theorem C2_amended_firstOf_empty :
    (∀ (terminals : Finset String) (firstSet : SymMap),
      computeFirstOf terminals firstSet [] = ∅) ∧
    (∀ (terminals : Finset String) (firstSet : SymMap),
      "epsilon" ∈ terminals → computeFirstOf terminals firstSet ["epsilon"] = {"epsilon"}) := by
  refine ⟨fun _ _ => rfl, fun terminals firstSet h => ?_⟩
  unfold computeFirstOf
  rw [if_pos h]

/-- Witness for C2's amended theorem at a concrete grammar state. -/
theorem C2_amended_firstOf_empty_witness :
    computeFirstOf {"epsilon"} (fun _ => ∅) ["epsilon"] = {"epsilon"} :=
  C2_amended_firstOf_empty.2 {"epsilon"} (fun _ => ∅) (by decide)

/-- C4, counterexample: in the grammar with the single rule `S -> A`,
the right-hand symbol `A` appears as no rule's left-hand side (the only
left-hand side is `S`), yet `loadGrammar` classifies it as a nonterminal
and not as a terminal — classification is by the case of the first
character, not by occurrence as a left-hand side. -/
theorem C4_counterexample :
    (loadGrammar [["S", "->", "A"]]).grammar = [⟨"S", ["A"]⟩] ∧
    "A" ∈ (loadGrammar [["S", "->", "A"]]).nonTerminals ∧
    "A" ∉ (loadGrammar [["S", "->", "A"]]).terminals ∧
    ("A" : String) ≠ "S" := by
  decide

/-- C4, amended: after `loadGrammar`, a symbol occurring on some rule's
right-hand side is in the terminal set if and only if its first
character is not an uppercase ASCII letter, and in the nonterminal set
if and only if its first character is uppercase or it also occurs as
some rule's left-hand side. -/
theorem C4_amended_classification_by_case (lines : List (List String)) (s : String)
    (h : ∃ r ∈ (loadGrammar lines).grammar, s ∈ r.rhs) :
    (s ∈ (loadGrammar lines).terminals ↔ isUpperFirst s = false) ∧
    (s ∈ (loadGrammar lines).nonTerminals ↔
      (isUpperFirst s = true ∨ ∃ r ∈ (loadGrammar lines).grammar, r.lhs = s)) := by
  obtain ⟨hT, hN⟩ := loadGrammar_inv lines
  obtain ⟨r, hr, hs⟩ := h
  constructor
  · rw [hT s]
    constructor
    · rintro ⟨r', _, _, hb⟩
      exact hb
    · intro hb
      exact ⟨r, hr, hs, hb⟩
  · rw [hN s]
    constructor
    · rintro (⟨r', hr', hl⟩ | ⟨r', _, _, hb⟩)
      · exact Or.inr ⟨r', hr', hl⟩
      · exact Or.inl hb
    · rintro (hb | ⟨r', hr', hl⟩)
      · exact Or.inr ⟨r, hr, hs, hb⟩
      · exact Or.inl ⟨r', hr', hl⟩

/-- Witness for C4's amended theorem at the grammar `S -> a`. -/
theorem C4_amended_classification_by_case_witness :
    ("a" ∈ (loadGrammar [["S", "->", "a"]]).terminals ↔ isUpperFirst "a" = false) ∧
    ("a" ∈ (loadGrammar [["S", "->", "a"]]).nonTerminals ↔
      (isUpperFirst "a" = true ∨ ∃ r ∈ (loadGrammar [["S", "->", "a"]]).grammar, r.lhs = "a")) :=
  C4_amended_classification_by_case [["S", "->", "a"]] "a" (by decide)

/-- C9, counterexample: loading the grammar `A -> epsilon` inserts the
epsilon marker `"epsilon"` into the terminal set (its first character is
not uppercase, so line 59 of the source treats it like any other
right-hand symbol), contradicting the claim that neither symbol set ever
contains the epsilon marker. -/
theorem C9_counterexample :
    (loadGrammar [["A", "->", "epsilon"]]).grammar = [⟨"A", ["epsilon"]⟩] ∧
    "epsilon" ∈ (loadGrammar [["A", "->", "epsilon"]]).terminals := by
  decide

/-- C9, amended: after `loadGrammar`, the terminal and nonterminal sets
are disjoint and neither contains `"epsilon"` or `"$"`, provided every
rule's left-hand side begins with an uppercase letter and no rule's
right-hand side contains the literal `"epsilon"` or `"$"`. -/
theorem C9_amended_disjoint (lines : List (List String))
    (hlhs : ∀ r ∈ (loadGrammar lines).grammar, isUpperFirst r.lhs = true)
    (hrhs : ∀ r ∈ (loadGrammar lines).grammar, "epsilon" ∉ r.rhs ∧ "$" ∉ r.rhs) :
    Disjoint (loadGrammar lines).terminals (loadGrammar lines).nonTerminals ∧
    "epsilon" ∉ (loadGrammar lines).terminals ∧
    "epsilon" ∉ (loadGrammar lines).nonTerminals ∧
    "$" ∉ (loadGrammar lines).terminals ∧
    "$" ∉ (loadGrammar lines).nonTerminals := by
  obtain ⟨hT, hN⟩ := loadGrammar_inv lines
  have heps : isUpperFirst "epsilon" = false := by decide
  have hdol : isUpperFirst "$" = false := by decide
  refine ⟨Finset.disjoint_left.mpr ?_, ?_, ?_, ?_, ?_⟩
  · intro s hsT hsN
    obtain ⟨r, _, _, hb⟩ := (hT s).mp hsT
    rcases (hN s).mp hsN with ⟨r', hr', hl⟩ | ⟨r', _, _, hb'⟩
    · rw [← hl] at hb
      rw [hlhs r' hr'] at hb
      exact absurd hb (by simp)
    · rw [hb'] at hb
      exact absurd hb (by simp)
  · intro hmem
    obtain ⟨r, hr, hs, _⟩ := (hT _).mp hmem
    exact (hrhs r hr).1 hs
  · intro hmem
    rcases (hN _).mp hmem with ⟨r, hr, hl⟩ | ⟨r, hr, hs, hb⟩
    · rw [← hl, hlhs r hr] at heps
      exact absurd heps (by simp)
    · rw [heps] at hb
      exact absurd hb (by simp)
  · intro hmem
    obtain ⟨r, hr, hs, _⟩ := (hT _).mp hmem
    exact (hrhs r hr).2 hs
  · intro hmem
    rcases (hN _).mp hmem with ⟨r, hr, hl⟩ | ⟨r, hr, hs, hb⟩
    · rw [← hl, hlhs r hr] at hdol
      exact absurd hdol (by simp)
    · rw [hdol] at hb
      exact absurd hb (by simp)

/-- Witness for C9's amended theorem at the grammar `S -> a`. -/
theorem C9_amended_disjoint_witness :
    Disjoint (loadGrammar [["S", "->", "a"]]).terminals
      (loadGrammar [["S", "->", "a"]]).nonTerminals ∧
    "epsilon" ∉ (loadGrammar [["S", "->", "a"]]).terminals ∧
    "epsilon" ∉ (loadGrammar [["S", "->", "a"]]).nonTerminals ∧
    "$" ∉ (loadGrammar [["S", "->", "a"]]).terminals ∧
    "$" ∉ (loadGrammar [["S", "->", "a"]]).nonTerminals :=
  C9_amended_disjoint [["S", "->", "a"]] (by decide) (by decide)

/-- C1, counterexample: for the grammar `S -> a` and the single token
`1 b b`, `parseTokens` does reject, but the stack top at the error is
the nonterminal `S` (not a terminal), so the error-no-entry branch
fires: the diagnostic written is
`Syntax error at line 1: unexpected token 'b'`, not the claimed
`Syntax error at line 1: expected 'a' but found 'b'`. -/
theorem C1_counterexample :
    runPipeline [["S", "->", "a"]] [⟨1, "b", "b"⟩] 10
      = some (.reject, ["Syntax error at line 1: unexpected token " ++ sq ++ "b" ++ sq]) ∧
    ("Syntax error at line 1: unexpected token " ++ sq ++ "b" ++ sq)
      ≠ ("Syntax error at line 1: expected " ++ sq ++ "a" ++ sq
          ++ " but found " ++ sq ++ "b" ++ sq) := by
  decide

/-- C1, amended: for the grammar `S -> a` and the token stream
consisting of the single token with line 1, type `b`, literal `b`,
`parseTokens` rejects and writes exactly the diagnostic line
`Syntax error at line 1: unexpected token 'b'` to the error
destination. -/
theorem C1_amended_reject_unexpected_token :
    runPipeline [["S", "->", "a"]] [⟨1, "b", "b"⟩] 10
      = some (.reject, ["Syntax error at line 1: unexpected token " ++ sq ++ "b" ++ sq]) := by
  decide

/-- C3, code bug: for the loaded grammar `S -> a`, after `computeFirst`
and `computeFollow` have run to completion, the stored FOLLOW set of the
start symbol `S` — the very map that `buildParseTable` reads — does NOT
contain the end-marker `"$"`: `computeFollow` only ever updates the
entry of a symbol that occurs on some right-hand side, and `S` occurs on
none, so the `follow.insert("$")` intent of `computeFollowOf` (line 114)
is never applied to it. -/
theorem C3_followStart_lacks_end_marker :
    exSt.startSymbol = "S" ∧ "$" ∉ exFollow "S" := by
  decide

/-- C5, confirmed: whenever at least two rules in grammar order write
the same parse-table key `(N, t)` (that is, the filtered list of rules
whose left-hand side is `N` and whose table-entry set contains `t` has
at least two elements), the finished table maps `(N, t)` to the last
such rule in grammar order — each `parseTable[{lhs, t}] = rule`
assignment silently overwrites, and `buildParseTable` returns only the
table, reporting no conflict. -/
theorem C5_last_write_wins (g : List GrammarRule) (terminals : Finset String)
    (firstSet followSet : SymMap) (N t : String)
    (h : 2 ≤ (g.filter (claimsKey terminals firstSet followSet N t)).length) :
    buildParseTable g terminals firstSet followSet (N, t)
      = (g.filter (claimsKey terminals firstSet followSet N t)).getLast? ∧
    (g.filter (claimsKey terminals firstSet followSet N t)).getLast? ≠ none := by
  refine ⟨buildParseTable_eq_getLast g terminals firstSet followSet N t, ?_⟩
  intro hnone
  rw [List.getLast?_eq_none_iff] at hnone
  rw [hnone] at h
  simp at h

/-- Witness for C5 at the two-rule grammar `S -> a`, `S -> a b`, whose
rules both claim the key `(S, a)`. -/
theorem C5_last_write_wins_witness :
    buildParseTable [⟨"S", ["a"]⟩, ⟨"S", ["a", "b"]⟩] {"a", "b"} (fun _ => ∅) (fun _ => ∅)
        ("S", "a")
      = ([⟨"S", ["a"]⟩, ⟨"S", ["a", "b"]⟩].filter
          (claimsKey {"a", "b"} (fun _ => ∅) (fun _ => ∅) "S" "a")).getLast? ∧
    ([⟨"S", ["a"]⟩, ⟨"S", ["a", "b"]⟩].filter
        (claimsKey {"a", "b"} (fun _ => ∅) (fun _ => ∅) "S" "a")).getLast? ≠ none :=
  C5_last_write_wins [⟨"S", ["a"]⟩, ⟨"S", ["a", "b"]⟩] {"a", "b"} (fun _ => ∅) (fun _ => ∅)
    "S" "a" (by decide)

/-- C6, counterexample: in the error-no-entry branch, the line number
and the literal are chosen by two independent tests (`line < 0` and
`value == "$"`), not by whether the current token is the synthetic end
token.  For the grammar `S -> a S` and tokens `1 a a`, `2 b $`, the
error occurs at the real token `{2, b, $}` (not the synthetic end
token), yet the literal is taken from the previous token (`a`) while the
line is taken from the current one — the claim would require both to
come from the current token here. -/
theorem C6_counterexample :
    runPipeline [["S", "->", "a", "S"]] [⟨1, "a", "a"⟩, ⟨2, "b", "$"⟩] 10
      = some (.reject, ["Syntax error at line 2: unexpected token " ++ sq ++ "a" ++ sq]) ∧
    ("Syntax error at line 2: unexpected token " ++ sq ++ "a" ++ sq)
      ≠ ("Syntax error at line 2: unexpected token " ++ sq ++ "$" ++ sq) := by
  decide

/-- C6, amended: in the error-no-entry diagnostic, the line number L is
taken from the previous token exactly when the current token's line
number is negative, and the literal is taken from the previous token
exactly when the current token's value is the string `"$"` — two
independent conditions (the synthetic end token satisfies both). -/
theorem C6_amended_independent_fallbacks (input : List Token) (index : Nat)
    (h1 : 1 ≤ index) (h2 : index < input.length) :
    noEntryDiag input index = some ("Syntax error at line "
      ++ toString (if (input.getD index dummyTok).line < 0
            then (input.getD (index - 1) dummyTok).line
            else (input.getD index dummyTok).line)
      ++ ": unexpected token " ++ sq
      ++ (if (input.getD index dummyTok).value = "$"
            then (input.getD (index - 1) dummyTok).value
            else (input.getD index dummyTok).value) ++ sq) := by
  have hn : ((index : Int) - 1).toNat = index - 1 := by omega
  have hprev : getTok input ((index : Int) - 1) = some (input.getD (index - 1) dummyTok) := by
    unfold getTok
    rw [if_pos ⟨by omega, by rw [hn]; omega⟩, hn]
  unfold noEntryDiag
  rw [hprev]
  by_cases hline : (input.getD index dummyTok).line < 0 <;>
    by_cases hval : (input.getD index dummyTok).value = "$" <;>
      simp only [hline, hval, ite_true, ite_false, if_true, if_false]

/-- Witness for C6's amended theorem at the input of the C6
counterexample (current token `{2, b, $}`, previous token `{1, a, a}`). -/
theorem C6_amended_independent_fallbacks_witness :
    noEntryDiag [⟨1, "a", "a"⟩, ⟨2, "b", "$"⟩] 1 = some ("Syntax error at line "
      ++ toString (if (([⟨1, "a", "a"⟩, ⟨2, "b", "$"⟩] : List Token).getD 1 dummyTok).line < 0
            then (([⟨1, "a", "a"⟩, ⟨2, "b", "$"⟩] : List Token).getD 0 dummyTok).line
            else (([⟨1, "a", "a"⟩, ⟨2, "b", "$"⟩] : List Token).getD 1 dummyTok).line)
      ++ ": unexpected token " ++ sq
      ++ (if (([⟨1, "a", "a"⟩, ⟨2, "b", "$"⟩] : List Token).getD 1 dummyTok).value = "$"
            then (([⟨1, "a", "a"⟩, ⟨2, "b", "$"⟩] : List Token).getD 0 dummyTok).value
            else (([⟨1, "a", "a"⟩, ⟨2, "b", "$"⟩] : List Token).getD 1 dummyTok).value) ++ sq) :=
  C6_amended_independent_fallbacks [⟨1, "a", "a"⟩, ⟨2, "b", "$"⟩] 1 (by decide) (by decide)

/-- C7, code bug: for the empty token stream against the grammar
`S -> a` (whose start symbol cannot derive epsilon), the error-no-entry
branch is reached with `index = 0` and the current token equal to the
synthetic end token, so the diagnostic construction reads
`input[index - 1] = input[-1]` — an access before the start of the token
sequence (undefined behaviour in the C++), modelled here as the
out-of-bounds outcome; the claimed in-bounds/sentinel behaviour does not
hold. -/
theorem C7_empty_stream_oob :
    runPipeline [["S", "->", "a"]] [] 10 = some (.oob, []) := by
  decide

/-- Diagnostic accounting for `parseLoop`: a terminating run appends at
most one line to the diagnostics accumulator, and appends none when it
accepts (or aborts on an out-of-bounds read). -/
lemma parseLoop_diags (table : String × String → Option GrammarRule)
    (terminals : Finset String) (input : List Token) :
    ∀ (fuel : Nat) (stack : List String) (index : Nat) (diags : List String)
      (st : PStatus) (ds : List String),
      parseLoop table terminals input fuel stack index diags = some (st, ds) →
      ∃ tail, ds = diags ++ tail ∧ tail.length ≤ 1 ∧
        (st = .accept → tail = []) ∧ (st = .oob → tail = []) := by
  intro fuel
  induction fuel with
  | zero =>
    intro stack index diags st ds h
    simp [parseLoop] at h
  | succ fuel ih =>
    intro stack index diags st ds h
    cases stack with
    | nil =>
      simp only [parseLoop, Option.some.injEq, Prod.mk.injEq] at h
      obtain ⟨hst, hds⟩ := h
      subst hst
      subst hds
      exact ⟨[], by simp, by simp, by simp, by simp⟩
    | cons top rest =>
      rw [parseLoop] at h
      split at h
      · simp only [Option.some.injEq, Prod.mk.injEq] at h
        obtain ⟨hst, hds⟩ := h
        subst hst
        subst hds
        exact ⟨[], by simp, by simp, by simp, by simp⟩
      · split at h
        · exact ih rest (index + 1) diags st ds h
        · split at h
          · simp only [Option.some.injEq, Prod.mk.injEq] at h
            obtain ⟨hst, hds⟩ := h
            subst hst
            subst hds
            exact ⟨[mismatchDiag top (input.getD index dummyTok)], rfl, by simp, by simp, by simp⟩
          · split at h
            · split at h
              · simp only [Option.some.injEq, Prod.mk.injEq] at h
                obtain ⟨hst, hds⟩ := h
                subst hst
                subst hds
                exact ⟨[], by simp, by simp, by simp, by simp⟩
              · next d _ =>
                simp only [Option.some.injEq, Prod.mk.injEq] at h
                obtain ⟨hst, hds⟩ := h
                subst hst
                subst hds
                exact ⟨[d], rfl, by simp, by simp, by simp⟩
            · exact ih _ index diags st ds h

/-- C8, counterexample: `parseTokens` can reject while writing NO
diagnostic line: with the grammar `S -> a`, `$ -> b` (the end-marker
used as a left-hand side) and tokens `1 a a`, `2 b b`, the bottom `"$"`
of the stack is expanded by the rule `$ -> b`, the stack then empties
without accepting, and the loop falls through to `return false` (line
213) without writing to the error file — refuting "exactly one
diagnostic line on every rejection". -/
theorem C8_counterexample :
    runPipeline [["S", "->", "a"], ["$", "->", "b"]] [⟨1, "a", "a"⟩, ⟨2, "b", "b"⟩] 10
      = some (.reject, []) := by
  decide

/-- C8, amended: every terminating execution of `parseTokens` that
accepts writes nothing to the error destination, and every terminating
execution that rejects writes AT MOST one diagnostic line (exactly one
on the two error branches, none when the stack empties without
accepting). -/
theorem C8_amended_at_most_one_diag (table : String × String → Option GrammarRule)
    (terminals : Finset String) (startSymbol : String) (tokens : List Token) (fuel : Nat)
    (st : PStatus) (ds : List String)
    (h : parseTokens table terminals startSymbol tokens fuel = some (st, ds)) :
    (st = .accept → ds = []) ∧ ds.length ≤ 1 := by
  obtain ⟨tail, htail, hlen, hacc, _⟩ :=
    parseLoop_diags table terminals (tokens ++ [endTok]) fuel [startSymbol, "$"] 0 [] st ds h
  subst htail
  exact ⟨fun ha => by rw [hacc ha], by simpa using hlen⟩

/-- Witness for C8's amended theorem at the accepting run of the grammar
`S -> a` on the token stream `1 a a`. -/
theorem C8_amended_at_most_one_diag_witness :
    ((PStatus.accept = PStatus.accept → ([] : List String) = []) ∧
      ([] : List String).length ≤ 1) :=
  C8_amended_at_most_one_diag exTable exSt.terminals exSt.startSymbol
    [⟨1, "a", "a"⟩] 10 .accept [] (by decide)

/-- C10, confirmed: for every grammar (and, for FOLLOW, any FIRST sets
and symbol classification), the `while (changed)` loops of
`computeFirst` and `computeFollow` terminate — some pass reports no
growth, after which the stored maps are constant — and the stored FIRST
and FOLLOW sets grow monotonically: the final sets are supersets of the
stored sets after any finite prefix of the iteration. -/
theorem C10_termination_monotone :
    ∀ (g : List GrammarRule) (terminals nonTerminals : Finset String)
      (firstSet : SymMap) (startSymbol : String),
      (∃ n, computeFirstChanged terminals g n = false) ∧
      (∀ n N, computeFirstIter terminals g n N ⊆ computeFirst terminals g N) ∧
      (∃ n, computeFollowChanged g terminals nonTerminals firstSet startSymbol n = false) ∧
      (∀ n N, computeFollowIter g terminals nonTerminals firstSet startSymbol n N
        ⊆ computeFollow g terminals nonTerminals firstSet startSymbol N) := by
  intro g terminals nonTerminals firstSet startSymbol
  refine ⟨?_, ?_, ?_, ?_⟩
  · exact uf_terminates firstKey (firstVal terminals) g (fun _ => ∅) (rhsSymbols g)
      (firstVal_bound terminals g) (fun _ => Finset.empty_subset _)
  · intro n N
    exact ufIter_subset_fix firstKey (firstVal terminals) g (fun _ => ∅) (rhsSymbols g)
      (firstVal_bound terminals g) (fun _ => Finset.empty_subset _) n N
  · exact uf_terminates (followKey nonTerminals) (followVal g terminals firstSet startSymbol)
      (followOccs g) (fun _ => ∅) (followBound g firstSet)
      (followVal_bound g terminals firstSet startSymbol) (fun _ => Finset.empty_subset _)
  · intro n N
    exact ufIter_subset_fix (followKey nonTerminals)
      (followVal g terminals firstSet startSymbol) (followOccs g) (fun _ => ∅)
      (followBound g firstSet) (followVal_bound g terminals firstSet startSymbol)
      (fun _ => Finset.empty_subset _) n N

end Demo02
